import Mathlib

/-!
Verification of the model-adapter module (`src/smolagents/models.py`):
message-list normalization (`get_clean_message_list`), stop-sequence
trimming (`remove_stop_sequences`), JSON-schema generation
(`get_json_schema`), and the uniform `Model.__call__` entry point with
its concrete adapter variants.

Messages are `{role, content}` string pairs; role-conversion tables are
association lists mirroring the Python dicts; fallible code returns
`Except String`.
-/

/-- A chat message: a Python dict `{"role": ..., "content": ...}`. -/
structure Message where
  role : String
  content : String
deriving DecidableEq, Repr

/-- `MessageRole.roles()` (models.py lines 52-61): the five recognized
role strings, in enumeration order. -/
def MessageRole.roles : List String :=
  ["user", "assistant", "system", "tool-call", "tool-response"]

/-- `tool_role_conversions` (models.py lines 64-67). -/
def tool_role_conversions : List (String × String) :=
  [("tool-call", "assistant"), ("tool-response", "user")]

/-- Python `repr` of a list of strings, as interpolated by the f-string
in the role-validation error (`\x27` is an ASCII apostrophe). -/
def pyListRepr (l : List String) : String :=
  "[" ++ String.intercalate ", " (l.map (fun s => "\x27" ++ s ++ "\x27")) ++ "]"

/-- The `ValueError` message raised by `get_clean_message_list`
(models.py lines 117-119); it names the offending role and the full
allowed role set. -/
def roleErrorMessage (role : String) : String :=
  "Incorrect role " ++ role ++ ", only " ++ pyListRepr MessageRole.roles ++
    " are supported for now."

/-- Dict lookup `role_conversions[role]` on the association-list model
of the conversion dict. -/
def lookupRole (rc : List (String × String)) (r : String) : Option String :=
  (rc.find? (fun p => p.1 == r)).map (fun p => p.2)

/-- Lines 121-122: `if role in role_conversions: message["role"] = role_conversions[role]`. -/
def convertRole (rc : List (String × String)) (m : Message) : Message :=
  match lookupRole rc m.role with
  | some newRole => ⟨newRole, m.content⟩
  | none => m

/-- The loop of `get_clean_message_list` (models.py lines 111-131).
`acc` holds `final_message_list` in reverse (head = last emitted entry);
each message is validated, converted, then merged into the last entry
when roles coincide, else appended. -/
def cleanLoop (rc : List (String × String)) (acc : List Message) :
    List Message → Except String (List Message)
  | [] => .ok acc.reverse
  | m :: rest =>
    if m.role ∈ MessageRole.roles then
      match acc with
      | last :: accTail =>
        if (convertRole rc m).role = last.role then
          cleanLoop rc
            (⟨last.role, last.content ++ "\n=======\n" ++ (convertRole rc m).content⟩ :: accTail)
            rest
        else
          cleanLoop rc (convertRole rc m :: last :: accTail) rest
      | [] => cleanLoop rc [convertRole rc m] rest
    else
      .error (roleErrorMessage m.role)

/-- `get_clean_message_list` (models.py lines 99-131).  The Python
`deepcopy` has no observable effect on the returned value, so the pure
value-level model starts the loop directly (the aliasing behaviour is
modelled separately by `get_clean_message_list_heap`). -/
def get_clean_message_list (message_list : List Message)
    (role_conversions : List (String × String)) : Except String (List Message) :=
  cleanLoop role_conversions [] message_list

/-- `remove_stop_sequences` (models.py lines 92-96): fold over the stop
sequences in order; `content[-len(s):] == s` is `takeRight`, and
`content[:-len(s)]` is `dropRight`. -/
def remove_stop_sequences (content : String) (stop_sequences : List String) : String :=
  match stop_sequences with
  | [] => content
  | stop_seq :: rest =>
    if content.takeRight stop_seq.length = stop_seq then
      remove_stop_sequences (content.dropRight stop_seq.length) rest
    else
      remove_stop_sequences content rest

/-- Join a list of strings with a separator between consecutive
elements; used to state the content-preservation property of merging. -/
def joinSep (sep : String) : List String → String
  | [] => ""
  | [x] => x
  | x :: y :: xs => x ++ sep ++ joinSep sep (y :: xs)

/-- The merge separator inserted between concatenated contents. -/
def mergeSep : String := "\n=======\n"

theorem convertRole_content (rc : List (String × String)) (m : Message) :
    (convertRole rc m).content = m.content := by
  unfold convertRole
  cases lookupRole rc m.role <;> rfl

theorem convertRole_nil (m : Message) : convertRole [] m = m := rfl

theorem cleanLoop_nil (rc : List (String × String)) (acc : List Message) :
    cleanLoop rc acc [] = .ok acc.reverse := rfl

theorem cleanLoop_cons_invalid (rc : List (String × String)) (acc : List Message)
    (m : Message) (rest : List Message) (h : m.role ∉ MessageRole.roles) :
    cleanLoop rc acc (m :: rest) = .error (roleErrorMessage m.role) := by
  simp [cleanLoop, h]

theorem cleanLoop_cons_nil_acc (rc : List (String × String)) (m : Message)
    (rest : List Message) (h : m.role ∈ MessageRole.roles) :
    cleanLoop rc [] (m :: rest) = cleanLoop rc [convertRole rc m] rest := by
  simp [cleanLoop, h]

theorem cleanLoop_cons_merge (rc : List (String × String)) (last : Message)
    (accTail : List Message) (m : Message) (rest : List Message)
    (h : m.role ∈ MessageRole.roles) (hr : (convertRole rc m).role = last.role) :
    cleanLoop rc (last :: accTail) (m :: rest) =
      cleanLoop rc
        (⟨last.role, last.content ++ mergeSep ++ (convertRole rc m).content⟩ :: accTail)
        rest := by
  simp [cleanLoop, h, hr, mergeSep]

theorem cleanLoop_cons_push (rc : List (String × String)) (last : Message)
    (accTail : List Message) (m : Message) (rest : List Message)
    (h : m.role ∈ MessageRole.roles) (hr : ¬ (convertRole rc m).role = last.role) :
    cleanLoop rc (last :: accTail) (m :: rest) =
      cleanLoop rc (convertRole rc m :: last :: accTail) rest := by
  simp [cleanLoop, h, hr]

/-- Entries below the top of the accumulator are frozen: running the loop
with extra accumulated entries just prefixes the (reversed) extras. -/
theorem cleanLoop_append (rc : List (String × String)) :
    ∀ (rest : List Message) (a : Message) (accTail : List Message),
    cleanLoop rc (a :: accTail) rest =
      (cleanLoop rc [a] rest).map (fun out => accTail.reverse ++ out) := by
  intro rest
  induction rest with
  | nil =>
    intro a accTail
    simp [cleanLoop_nil, Except.map]
  | cons m rest ih =>
    intro a accTail
    by_cases hv : m.role ∈ MessageRole.roles
    · by_cases hr : (convertRole rc m).role = a.role
      · rw [cleanLoop_cons_merge rc a accTail m rest hv hr,
          cleanLoop_cons_merge rc a [] m rest hv hr]
        exact ih _ accTail
      · rw [cleanLoop_cons_push rc a accTail m rest hv hr,
          cleanLoop_cons_push rc a [] m rest hv hr]
        rw [ih (convertRole rc m) (a :: accTail), ih (convertRole rc m) [a]]
        cases cleanLoop rc [convertRole rc m] rest with
        | ok out => simp [Except.map]
        | error e => simp [Except.map]
    · rw [cleanLoop_cons_invalid rc _ m rest hv, cleanLoop_cons_invalid rc _ m rest hv]
      rfl

theorem joinSep_singleton (sep x : String) : joinSep sep [x] = x := rfl

theorem joinSep_cons_cons (sep x y : String) (xs : List String) :
    joinSep sep (x :: y :: xs) = x ++ sep ++ joinSep sep (y :: xs) := rfl

theorem joinSep_glue (sep x y : String) (l : List String) :
    joinSep sep ((x ++ sep ++ y) :: l) = joinSep sep (x :: y :: l) := by
  cases l with
  | nil => rfl
  | cons z zs =>
    rw [joinSep_cons_cons, joinSep_cons_cons, joinSep_cons_cons]
    simp [String.append_assoc]

/-- Structure theorem for the normalization loop started with a single
accumulated message `a`: on a valid tail it succeeds, the first output
entry is `a` with a group of tail contents merged in, the remaining
entries are separator-joins of groups that partition the tail contents
in order, the output is no longer than `1 + |rest|`, adjacent output
roles differ, and every output role is `a`'s role or a converted tail
role. -/
theorem cleanLoop_single (rc : List (String × String)) :
    ∀ (rest : List Message) (a : Message),
    (∀ m ∈ rest, m.role ∈ MessageRole.roles) →
    ∃ (first : Message) (outTail : List Message) (g0 : List String) (gs : List (List String)),
      cleanLoop rc [a] rest = .ok (first :: outTail) ∧
      first.role = a.role ∧
      first.content = joinSep mergeSep (a.content :: g0) ∧
      outTail.map Message.content = gs.map (joinSep mergeSep) ∧
      g0 ++ gs.flatten = rest.map Message.content ∧
      (first :: outTail).length ≤ 1 + rest.length ∧
      List.Chain' (fun x y => x.role ≠ y.role) (first :: outTail) ∧
      (∀ x ∈ first :: outTail, x.role = a.role ∨
        x.role ∈ rest.map (fun m => (convertRole rc m).role)) := by
  intro rest
  induction rest with
  | nil =>
    intro a _
    refine ⟨a, [], [], [], rfl, rfl, rfl, rfl, rfl, by simp, by simp, ?_⟩
    intro x hx
    left
    rw [List.mem_singleton.mp hx]
  | cons m rest ih =>
    intro a h
    have hm : m.role ∈ MessageRole.roles := h m (List.mem_cons_self m rest)
    have hrest : ∀ x ∈ rest, x.role ∈ MessageRole.roles :=
      fun x hx => h x (List.mem_cons_of_mem m hx)
    by_cases hr : (convertRole rc m).role = a.role
    · rw [cleanLoop_cons_merge rc a [] m rest hm hr]
      obtain ⟨first, outTail, g0, gs, h1, h2, h3, h4, h5, h6, h7, h8⟩ :=
        ih ⟨a.role, a.content ++ mergeSep ++ (convertRole rc m).content⟩ hrest
      refine ⟨first, outTail, m.content :: g0, gs, h1, h2, ?_, h4, ?_, ?_, h7, ?_⟩
      · rw [h3]
        show joinSep mergeSep ((a.content ++ mergeSep ++ (convertRole rc m).content) :: g0) = _
        rw [convertRole_content, joinSep_glue]
      · simp only [List.cons_append, List.map_cons]
        rw [h5]
      · simp only [List.length_cons] at h6 ⊢
        omega
      · intro x hx
        rcases h8 x hx with hh | hh
        · left; exact hh
        · right
          simp only [List.map_cons]
          exact List.mem_cons_of_mem _ hh
    · rw [cleanLoop_cons_push rc a [] m rest hm hr,
        cleanLoop_append rc rest (convertRole rc m) [a]]
      obtain ⟨first, outTail, g0, gs, h1, h2, h3, h4, h5, h6, h7, h8⟩ :=
        ih (convertRole rc m) hrest
      rw [h1]
      refine ⟨a, first :: outTail, [], (m.content :: g0) :: gs, ?_, rfl, rfl, ?_, ?_, ?_, ?_, ?_⟩
      · simp [Except.map]
      · simp only [List.map_cons]
        rw [h3, convertRole_content, h4]
      · simp only [List.nil_append, List.flatten_cons, List.cons_append, List.map_cons]
        rw [h5]
      · simp only [List.length_cons] at h6 ⊢
        omega
      · rw [List.chain'_cons]
        refine ⟨?_, h7⟩
        intro hh
        rw [h2] at hh
        exact hr hh.symm
      · intro x hx
        rcases List.mem_cons.mp hx with rfl | hx'
        · left; rfl
        · rcases h8 x hx' with hh | hh
          · right
            simp only [List.map_cons]
            rw [hh]
            exact List.mem_cons_self _ _
          · right
            simp only [List.map_cons]
            exact List.mem_cons_of_mem _ hh

/-- C1: for every message list whose roles are all recognized and every
role-conversion table, `get_clean_message_list` returns a list no longer
than the input in which no two adjacent entries share a role (the roles
compared being the post-conversion roles stored in the output). -/
theorem get_clean_message_list_length_le_and_adjacent_roles_distinct
    (msgs : List Message) (rc : List (String × String))
    (h : ∀ m ∈ msgs, m.role ∈ MessageRole.roles) :
    ∃ out, get_clean_message_list msgs rc = .ok out ∧
      out.length ≤ msgs.length ∧
      List.Chain' (fun x y => x.role ≠ y.role) out := by
  cases msgs with
  | nil => exact ⟨[], rfl, by simp, by simp⟩
  | cons m rest =>
    have hm : m.role ∈ MessageRole.roles := h m (List.mem_cons_self m rest)
    have hrest : ∀ x ∈ rest, x.role ∈ MessageRole.roles :=
      fun x hx => h x (List.mem_cons_of_mem m hx)
    obtain ⟨first, outTail, g0, gs, h1, _, _, _, _, h6, h7, _⟩ :=
      cleanLoop_single rc rest (convertRole rc m) hrest
    refine ⟨first :: outTail, ?_, ?_, h7⟩
    · rw [get_clean_message_list, cleanLoop_cons_nil_acc rc m rest hm, h1]
    · simp only [List.length_cons] at h6 ⊢
      omega

theorem get_clean_message_list_length_le_and_adjacent_roles_distinct_witness :
    ∃ out, get_clean_message_list
        [⟨"user", "a"⟩, ⟨"assistant", "b"⟩, ⟨"assistant", "c"⟩] [] = .ok out ∧
      out.length ≤ 3 ∧
      List.Chain' (fun x y => x.role ≠ y.role) out :=
  get_clean_message_list_length_le_and_adjacent_roles_distinct
    [⟨"user", "a"⟩, ⟨"assistant", "b"⟩, ⟨"assistant", "c"⟩] [] (by decide)

/-- C2: merging is content-preserving: on a valid input, the output
contents are the separator-joins of groups of input contents that
partition the input contents in order (so concatenating the input
contents equals concatenating the output contents once each inserted
"\n=======\n" separator is removed); and on
`[{user,"hi"},{user,"there"}]` with the empty conversion table the
result is exactly `[{user,"hi\n=======\nthere"}]`. -/
theorem get_clean_message_list_content_preserving
    (msgs : List Message) (rc : List (String × String))
    (h : ∀ m ∈ msgs, m.role ∈ MessageRole.roles) :
    (∃ (out : List Message) (gs : List (List String)),
      get_clean_message_list msgs rc = .ok out ∧
      out.map Message.content = gs.map (joinSep mergeSep) ∧
      gs.flatten = msgs.map Message.content) ∧
    get_clean_message_list [⟨"user", "hi"⟩, ⟨"user", "there"⟩] [] =
      .ok [⟨"user", "hi\n=======\nthere"⟩] := by
  refine ⟨?_, rfl⟩
  cases msgs with
  | nil => exact ⟨[], [], rfl, rfl, rfl⟩
  | cons m rest =>
    have hm : m.role ∈ MessageRole.roles := h m (List.mem_cons_self m rest)
    have hrest : ∀ x ∈ rest, x.role ∈ MessageRole.roles :=
      fun x hx => h x (List.mem_cons_of_mem m hx)
    obtain ⟨first, outTail, g0, gs, h1, _, h3, h4, h5, _, _, _⟩ :=
      cleanLoop_single rc rest (convertRole rc m) hrest
    refine ⟨first :: outTail, (m.content :: g0) :: gs, ?_, ?_, ?_⟩
    · rw [get_clean_message_list, cleanLoop_cons_nil_acc rc m rest hm, h1]
    · simp only [List.map_cons]
      rw [h3, convertRole_content, h4]
    · simp only [List.flatten_cons, List.cons_append, List.map_cons]
      rw [h5]

theorem get_clean_message_list_content_preserving_witness :
    (∃ (out : List Message) (gs : List (List String)),
      get_clean_message_list [⟨"user", "hi"⟩, ⟨"user", "there"⟩] [] = .ok out ∧
      out.map Message.content = gs.map (joinSep mergeSep) ∧
      gs.flatten = [⟨"user", "hi"⟩, ⟨"user", "there"⟩].map Message.content) ∧
    get_clean_message_list [⟨"user", "hi"⟩, ⟨"user", "there"⟩] [] =
      .ok [⟨"user", "hi\n=======\nthere"⟩] :=
  get_clean_message_list_content_preserving
    [⟨"user", "hi"⟩, ⟨"user", "there"⟩] [] (by decide)

theorem cleanLoop_ok_of_valid (rc : List (String × String)) :
    ∀ (rest : List Message) (acc : List Message),
    (∀ m ∈ rest, m.role ∈ MessageRole.roles) →
    ∃ out, cleanLoop rc acc rest = .ok out := by
  intro rest
  induction rest with
  | nil => exact fun acc _ => ⟨acc.reverse, rfl⟩
  | cons m rest ih =>
    intro acc h
    have hm : m.role ∈ MessageRole.roles := h m (List.mem_cons_self m rest)
    have hrest : ∀ x ∈ rest, x.role ∈ MessageRole.roles :=
      fun x hx => h x (List.mem_cons_of_mem m hx)
    cases acc with
    | nil =>
      rw [cleanLoop_cons_nil_acc rc m rest hm]
      exact ih _ hrest
    | cons last accTail =>
      by_cases hr : (convertRole rc m).role = last.role
      · rw [cleanLoop_cons_merge rc last accTail m rest hm hr]
        exact ih _ hrest
      · rw [cleanLoop_cons_push rc last accTail m rest hm hr]
        exact ih _ hrest

theorem cleanLoop_error_first (rc : List (String × String)) :
    ∀ (pre : List Message) (m : Message) (post : List Message) (acc : List Message),
    (∀ x ∈ pre, x.role ∈ MessageRole.roles) → m.role ∉ MessageRole.roles →
    cleanLoop rc acc (pre ++ m :: post) = .error (roleErrorMessage m.role) := by
  intro pre
  induction pre with
  | nil =>
    intro m post acc _ hbad
    exact cleanLoop_cons_invalid rc acc m post hbad
  | cons p pre ih =>
    intro m post acc h hbad
    have hp : p.role ∈ MessageRole.roles := h p (List.mem_cons_self p pre)
    have hpre : ∀ x ∈ pre, x.role ∈ MessageRole.roles :=
      fun x hx => h x (List.mem_cons_of_mem p hx)
    rw [List.cons_append]
    cases acc with
    | nil =>
      rw [cleanLoop_cons_nil_acc rc p _ hp]
      exact ih m post _ hpre hbad
    | cons last accTail =>
      by_cases hr : (convertRole rc p).role = last.role
      · rw [cleanLoop_cons_merge rc last accTail p _ hp hr]
        exact ih m post _ hpre hbad
      · rw [cleanLoop_cons_push rc last accTail p _ hp hr]
        exact ih m post _ hpre hbad

/-- Find the first element violating a decidable predicate. -/
theorem exists_first_violation (P : Message → Prop) [DecidablePred P] :
    ∀ (l : List Message), (∃ m ∈ l, ¬ P m) →
    ∃ pre x post, l = pre ++ x :: post ∧ (∀ y ∈ pre, P y) ∧ ¬ P x := by
  intro l
  induction l with
  | nil => rintro ⟨m, hm, _⟩; cases hm
  | cons a l ih =>
    intro h
    by_cases ha : P a
    · have : ∃ m ∈ l, ¬ P m := by
        obtain ⟨m, hm, hnp⟩ := h
        rcases List.mem_cons.mp hm with rfl | hm'
        · exact absurd ha hnp
        · exact ⟨m, hm', hnp⟩
      obtain ⟨pre, x, post, rfl, hpre, hx⟩ := ih this
      refine ⟨a :: pre, x, post, rfl, ?_, hx⟩
      intro y hy
      rcases List.mem_cons.mp hy with rfl | hy'
      · exact ha
      · exact hpre y hy'
    · exact ⟨[], a, l, rfl, by simp, ha⟩

/-- C6: `get_clean_message_list` fails if and only if some input role is
unrecognized; when it fails, the error is the `ValueError` text built
from the role of the first offending message, taken before any
conversion or merging touches that message (the message names the
offending role and, via `pyListRepr MessageRole.roles`, the full allowed
set). -/
theorem get_clean_message_list_error_iff (msgs : List Message) (rc : List (String × String)) :
    ((∃ e, get_clean_message_list msgs rc = .error e) ↔
      ∃ m ∈ msgs, m.role ∉ MessageRole.roles) ∧
    (∀ pre m post, msgs = pre ++ m :: post →
      (∀ x ∈ pre, x.role ∈ MessageRole.roles) → m.role ∉ MessageRole.roles →
      get_clean_message_list msgs rc = .error (roleErrorMessage m.role)) := by
  constructor
  · constructor
    · rintro ⟨e, he⟩
      by_contra hall
      push_neg at hall
      obtain ⟨out, hout⟩ := cleanLoop_ok_of_valid rc msgs [] hall
      rw [get_clean_message_list] at he
      rw [hout] at he
      cases he
    · intro hbad
      obtain ⟨pre, x, post, rfl, hpre, hx⟩ :=
        exists_first_violation (fun m => m.role ∈ MessageRole.roles) msgs hbad
      exact ⟨roleErrorMessage x.role, cleanLoop_error_first rc pre x post [] hpre hx⟩
  · intro pre m post heq hpre hbad
    rw [heq]
    exact cleanLoop_error_first rc pre m post [] hpre hbad

theorem get_clean_message_list_error_iff_witness :
    get_clean_message_list [⟨"user", "a"⟩, ⟨"bot", "b"⟩, ⟨"assistant", "c"⟩] [] =
      .error (roleErrorMessage "bot") :=
  (get_clean_message_list_error_iff
      [⟨"user", "a"⟩, ⟨"bot", "b"⟩, ⟨"assistant", "c"⟩] []).2
    [⟨"user", "a"⟩] ⟨"bot", "b"⟩ [⟨"assistant", "c"⟩] rfl (by decide) (by decide)

theorem convertRole_role_mem (rc : List (String × String)) (m : Message)
    (h1 : m.role ∈ MessageRole.roles) (h2 : ∀ p ∈ rc, p.2 ∈ MessageRole.roles) :
    (convertRole rc m).role ∈ MessageRole.roles := by
  unfold convertRole
  cases hl : lookupRole rc m.role with
  | none => exact h1
  | some v =>
    unfold lookupRole at hl
    cases hf : rc.find? (fun p => p.1 == m.role) with
    | none => rw [hf] at hl; cases hl
    | some p =>
      rw [hf] at hl
      cases hl
      exact h2 p (List.mem_of_find?_eq_some hf)

/-- A valid list whose adjacent roles already differ passes through the
loop unchanged when the conversion table is empty. -/
theorem cleanLoop_id_of_chain :
    ∀ (rest : List Message) (a : Message),
    (∀ x ∈ rest, x.role ∈ MessageRole.roles) →
    List.Chain' (fun x y => x.role ≠ y.role) (a :: rest) →
    cleanLoop [] [a] rest = .ok (a :: rest) := by
  intro rest
  induction rest with
  | nil => intro a _ _; rfl
  | cons m rest ih =>
    intro a h hchain
    have hm : m.role ∈ MessageRole.roles := h m (List.mem_cons_self m rest)
    have hrest : ∀ x ∈ rest, x.role ∈ MessageRole.roles :=
      fun x hx => h x (List.mem_cons_of_mem m hx)
    have hne : a.role ≠ m.role := (List.chain'_cons.mp hchain).1
    have hr : ¬ (convertRole [] m).role = a.role := by
      rw [convertRole_nil]
      exact fun hh => hne hh.symm
    rw [cleanLoop_cons_push [] a [] m rest hm hr, convertRole_nil,
      cleanLoop_append [] rest m [a],
      ih m hrest (List.chain'_cons.mp hchain).2]
    rfl

/-- C9: on a valid input (with any conversion table whose values are
recognized roles), re-running `get_clean_message_list` with the empty
(identity) conversion table on the output returns the output
unchanged. -/
theorem get_clean_message_list_idempotent
    (msgs : List Message) (rc : List (String × String)) (out : List Message)
    (h1 : ∀ m ∈ msgs, m.role ∈ MessageRole.roles)
    (h2 : ∀ p ∈ rc, p.2 ∈ MessageRole.roles)
    (h3 : get_clean_message_list msgs rc = .ok out) :
    get_clean_message_list out [] = .ok out := by
  cases msgs with
  | nil =>
    rw [get_clean_message_list, cleanLoop_nil] at h3
    cases h3
    rfl
  | cons m rest =>
    have hm : m.role ∈ MessageRole.roles := h1 m (List.mem_cons_self m rest)
    have hrest : ∀ x ∈ rest, x.role ∈ MessageRole.roles :=
      fun x hx => h1 x (List.mem_cons_of_mem m hx)
    obtain ⟨first, outTail, g0, gs, hh1, _, _, _, _, _, hchain, hroles⟩ :=
      cleanLoop_single rc rest (convertRole rc m) hrest
    rw [get_clean_message_list, cleanLoop_cons_nil_acc rc m rest hm, hh1] at h3
    cases h3
    have hvalid : ∀ x ∈ first :: outTail, x.role ∈ MessageRole.roles := by
      intro x hx
      rcases hroles x hx with hh | hh
      · rw [hh]
        exact convertRole_role_mem rc m hm h2
      · obtain ⟨y, hy, hyx⟩ := List.mem_map.mp hh
        rw [← hyx]
        exact convertRole_role_mem rc y (hrest y hy) h2
    have hfirst : first.role ∈ MessageRole.roles :=
      hvalid first (List.mem_cons_self first outTail)
    have htail : ∀ x ∈ outTail, x.role ∈ MessageRole.roles :=
      fun x hx => hvalid x (List.mem_cons_of_mem first hx)
    rw [get_clean_message_list, cleanLoop_cons_nil_acc [] first outTail hfirst,
      convertRole_nil]
    exact cleanLoop_id_of_chain outTail first htail hchain

theorem get_clean_message_list_idempotent_witness :
    get_clean_message_list [⟨"assistant", "x\n=======\ny"⟩] [] =
      .ok [⟨"assistant", "x\n=======\ny"⟩] :=
  get_clean_message_list_idempotent
    [⟨"tool-call", "x"⟩, ⟨"assistant", "y"⟩] tool_role_conversions
    [⟨"assistant", "x\n=======\ny"⟩] (by decide) (by decide) rfl

theorem remove_stop_sequences_no_match :
    ∀ (stop_sequences : List String) (content : String),
    (∀ t ∈ stop_sequences, content.takeRight t.length ≠ t) →
    remove_stop_sequences content stop_sequences = content := by
  intro stop_sequences
  induction stop_sequences with
  | nil => intro content _; rfl
  | cons s rest ih =>
    intro content h
    have hs : content.takeRight s.length ≠ s := h s (List.mem_cons_self s rest)
    rw [remove_stop_sequences, if_neg hs]
    exact ih content (fun t ht => h t (List.mem_cons_of_mem s ht))

/-- C4 counterexample: the claimed value `trim("abcAB", ["AB","c"]) ==
"abc"` is false on the code — after "AB" is removed, the next sequence
"c" is tested against the current string "abc" and trims it too. -/
theorem remove_stop_sequences_abcAB_ne_abc :
    remove_stop_sequences "abcAB" ["AB", "c"] ≠ "abc" := by decide

/-- C4 (amended): `trim("abcAB", ["AB","c"])` returns "ab": the trailing
"AB" is removed first, and the next stop sequence "c" is then tested
against the current string "abc" and removes its trailing "c". -/
theorem remove_stop_sequences_abcAB_eq_ab :
    remove_stop_sequences "abcAB" ["AB", "c"] = "ab" := by decide

/-- C5: `remove_stop_sequences` tries the stop sequences strictly in the
supplied order, each against the current (possibly already trimmed)
text, removing exactly one trailing occurrence on a match; it is the
identity on an empty sequence list and when no sequence matches; a later
sequence can trim further after an earlier trim; and
`trim("abcSTOP",["STOP"]) = "abc"`, `trim("abc",["STOP"]) = "abc"`. -/
theorem remove_stop_sequences_spec (content : String) (stop_sequences : List String)
    (s : String) (rest : List String)
    (hnone : ∀ t ∈ stop_sequences, content.takeRight t.length ≠ t) :
    remove_stop_sequences content [] = content ∧
    remove_stop_sequences content (s :: rest) =
      remove_stop_sequences
        (if content.takeRight s.length = s then content.dropRight s.length else content)
        rest ∧
    remove_stop_sequences content stop_sequences = content ∧
    remove_stop_sequences "abcSTOP" ["STOP"] = "abc" ∧
    remove_stop_sequences "abc" ["STOP"] = "abc" ∧
    remove_stop_sequences "xyC" ["C", "y"] = "x" := by
  refine ⟨rfl, ?_, remove_stop_sequences_no_match stop_sequences content hnone,
    by decide, by decide, by decide⟩
  by_cases hs : content.takeRight s.length = s
  · rw [remove_stop_sequences, if_pos hs, if_pos hs]
  · rw [remove_stop_sequences, if_neg hs, if_neg hs]

theorem remove_stop_sequences_spec_witness :
    remove_stop_sequences "abc" ["STOP"] = "abc" :=
  (remove_stop_sequences_spec "abc" ["STOP"] "A" [] (by decide)).2.2.1

/-- A tool parameter spec, the per-parameter dict of `tool.inputs`:
`type` models the "type" key (absent when `none`, which makes the
`value["type"]` lookup fail), `nullable` the optional "nullable" key. -/
structure ParamSpec where
  type : Option String
  description : Option String
  nullable : Option Bool
deriving DecidableEq, Repr

/-- A tool: `{name, description, inputs}` with `inputs` an ordered
mapping from parameter name to spec. -/
structure Tool where
  name : String
  description : String
  inputs : List (String × ParamSpec)
deriving DecidableEq, Repr

/-- The `parameters` object of the emitted descriptor. -/
structure ParametersSchema where
  type : String
  properties : List (String × ParamSpec)
  required : List String
deriving DecidableEq, Repr

/-- The `function` object of the emitted descriptor. -/
structure FunctionSchema where
  name : String
  description : String
  parameters : ParametersSchema
deriving DecidableEq, Repr

/-- The descriptor returned by `get_json_schema`. -/
structure ToolDescriptor where
  type : String
  function : FunctionSchema
deriving DecidableEq, Repr

/-- The loop of `get_json_schema` (models.py lines 73-77): for each
parameter in mapping order, read `value["type"]` (a missing key aborts),
rewrite "any" to "string", and collect into `required` every name whose
spec lacks `nullable == true`. -/
def processInputs : List (String × ParamSpec) → Option (List (String × ParamSpec) × List String)
  | [] => some ([], [])
  | (key, value) :: rest =>
    match value.type with
    | none => none
    | some t =>
      match processInputs rest with
      | none => none
      | some (props, req) =>
        some ((key, if t = "any" then ⟨some "string", value.description, value.nullable⟩
                    else value) :: props,
          if value.nullable = some true then req else key :: req)

/-- `get_json_schema` (models.py lines 70-89). -/
def get_json_schema (tool : Tool) : Option ToolDescriptor :=
  match processInputs tool.inputs with
  | none => none
  | some (props, req) =>
    some ⟨"function", ⟨tool.name, tool.description, ⟨"object", props, req⟩⟩⟩

/-- C8: for a tool whose every parameter spec has a "type" key,
`get_json_schema` returns the `{type:"function", function:{name,
description, parameters:{type:"object", properties, required}}}`
descriptor in which the properties are, in input order, the input specs
with type "any" rewritten to "string", and `required` lists exactly the
parameter names whose spec lacks `nullable == true`, in input order. -/
theorem get_json_schema_spec (tool : Tool)
    (h : ∀ p ∈ tool.inputs, (p.2).type.isSome) :
    ∃ d, get_json_schema tool = some d ∧
      d.type = "function" ∧
      d.function.name = tool.name ∧
      d.function.description = tool.description ∧
      d.function.parameters.type = "object" ∧
      d.function.parameters.properties =
        tool.inputs.map (fun p =>
          (p.1, if p.2.type = some "any"
                then (⟨some "string", p.2.description, p.2.nullable⟩ : ParamSpec)
                else p.2)) ∧
      d.function.parameters.required =
        (tool.inputs.filter (fun p => ¬ p.2.nullable = some true)).map Prod.fst := by
  have main : ∀ (l : List (String × ParamSpec)),
      (∀ p ∈ l, (p.2).type.isSome) →
      processInputs l = some
        (l.map (fun p =>
          (p.1, if p.2.type = some "any"
                then (⟨some "string", p.2.description, p.2.nullable⟩ : ParamSpec)
                else p.2)),
         (l.filter (fun p => ¬ p.2.nullable = some true)).map Prod.fst) := by
    intro l
    induction l with
    | nil => intro _; rfl
    | cons p rest ih =>
      intro hl
      have hp : (p.2).type.isSome := hl p (List.mem_cons_self p rest)
      have hrest : ∀ q ∈ rest, (q.2).type.isSome :=
        fun q hq => hl q (List.mem_cons_of_mem p hq)
      obtain ⟨t, ht⟩ := Option.isSome_iff_exists.mp hp
      obtain ⟨key, value⟩ := p
      simp only at ht
      rw [processInputs, ht, ih hrest]
      by_cases hn : value.nullable = some true
      · by_cases ha : t = "any"
        · simp [ha, ht, hn, List.filter]
        · simp [ha, ht, hn, List.filter]
      · by_cases ha : t = "any"
        · simp [ha, ht, hn, List.filter]
        · simp [ha, ht, hn, List.filter]
  refine ⟨⟨"function", ⟨tool.name, tool.description,
    ⟨"object",
     tool.inputs.map (fun p =>
       (p.1, if p.2.type = some "any"
             then (⟨some "string", p.2.description, p.2.nullable⟩ : ParamSpec)
             else p.2)),
     (tool.inputs.filter (fun p => ¬ p.2.nullable = some true)).map Prod.fst⟩⟩⟩,
    ?_, rfl, rfl, rfl, rfl, rfl, rfl⟩
  rw [get_json_schema, main tool.inputs h]

theorem get_json_schema_spec_witness :
    ∃ d, get_json_schema
        ⟨"calc", "a calculator",
         [("expr", ⟨some "any", some "the expression", none⟩),
          ("precision", ⟨some "integer", none, some true⟩)]⟩ = some d ∧
      d.type = "function" ∧
      d.function.name = "calc" ∧
      d.function.description = "a calculator" ∧
      d.function.parameters.type = "object" ∧
      d.function.parameters.properties =
        [("expr", ⟨some "string", some "the expression", none⟩),
         ("precision", ⟨some "integer", none, some true⟩)] ∧
      d.function.parameters.required = ["expr"] := by
  obtain ⟨d, h1, h2, h3, h4, h5, h6, h7⟩ := get_json_schema_spec
    ⟨"calc", "a calculator",
     [("expr", ⟨some "any", some "the expression", none⟩),
      ("precision", ⟨some "integer", none, some true⟩)]⟩ (by decide)
  exact ⟨d, h1, h2, h3, h4, h5, by rw [h6]; rfl, by rw [h7]; rfl⟩

/-- The two token-usage fields owned by an adapter instance
(`Model.__init__`, models.py lines 134-137). -/
structure TokenCounts where
  last_input_token_count : Option Nat
  last_output_token_count : Option Nat
deriving DecidableEq, Repr

/-- What the opaque backend collaborator hands back: the completion text
plus its usage numbers. -/
structure BackendResponse where
  content : String
  prompt_tokens : Nat
  completion_tokens : Nat
deriving DecidableEq, Repr

/-- The dynamically typed `messages` argument of `Model.__call__`:
either an actual list of messages, or any non-list Python value
(rejected by the `isinstance(messages, List)` check). -/
inductive MessagesArg where
  | list (msgs : List Message)
  | notList
deriving DecidableEq

/-- The opaque backend collaborator of an adapter variant: given the
normalized messages, the stop argument, the grammar and the token limit,
it produces a response.  Network behaviour is out of scope. -/
abbrev Backend :=
  List Message → Option (List String) → Option String → Nat → BackendResponse

/-- The `ValueError` message of `Model.__call__` (models.py lines
175-178); `\x27` is an ASCII apostrophe. -/
def valueErrorMessage : String :=
  "Messages should be a list of dictionaries with \x27role\x27 and \x27content\x27 keys."

/-- `Model.__call__` (models.py lines 154-183), parametrized by the
variant's `generate` method acting on the adapter state: reject a
non-list argument, default `stop_sequences` to `[]`, run `generate`,
and trim the returned text once with `remove_stop_sequences`. -/
def Model.call
    (generate : TokenCounts → List Message → List String → Option String → Nat →
      TokenCounts × Except String String)
    (state : TokenCounts) (messages : MessagesArg) (stop_sequences : Option (List String))
    (grammar : Option String) (max_tokens : Nat) : TokenCounts × Except String String :=
  match messages with
  | .notList => (state, .error valueErrorMessage)
  | .list msgs =>
    match generate state msgs (stop_sequences.getD []) grammar max_tokens with
    | (state2, .ok response) =>
        (state2, .ok (remove_stop_sequences response (stop_sequences.getD [])))
    | (state2, .error e) => (state2, .error e)

/-- `HfApiModel.generate` (models.py lines 230-258): normalize with
`tool_role_conversions`, call the backend, record usage, return the
content untrimmed. -/
def HfApiModel.generate (backend : Backend) (state : TokenCounts)
    (messages : List Message) (stop_sequences : Option (List String))
    (grammar : Option String) (max_tokens : Nat) : TokenCounts × Except String String :=
  match get_clean_message_list messages tool_role_conversions with
  | .error e => (state, .error e)
  | .ok msgs =>
    let output := backend msgs stop_sequences grammar max_tokens
    (⟨some output.prompt_tokens, some output.completion_tokens⟩, .ok output.content)

/-- `PortkeyModel.generate` (models.py lines 540-568): same shape as
`HfApiModel.generate`; the content is returned untrimmed. -/
def PortkeyModel.generate (backend : Backend) (state : TokenCounts)
    (messages : List Message) (stop_sequences : Option (List String))
    (grammar : Option String) (max_tokens : Nat) : TokenCounts × Except String String :=
  match get_clean_message_list messages tool_role_conversions with
  | .error e => (state, .error e)
  | .ok msgs =>
    let output := backend msgs stop_sequences grammar max_tokens
    (⟨some output.prompt_tokens, some output.completion_tokens⟩, .ok output.content)

/-- `TransformersModel.generate` (models.py lines 343-378): normalize,
call the backend, record usage, and — when `stop_sequences` is not
`None` — apply `remove_stop_sequences` already inside `generate`. -/
def TransformersModel.generate (backend : Backend) (state : TokenCounts)
    (messages : List Message) (stop_sequences : Option (List String))
    (grammar : Option String) (max_tokens : Nat) : TokenCounts × Except String String :=
  match get_clean_message_list messages tool_role_conversions with
  | .error e => (state, .error e)
  | .ok msgs =>
    let out := backend msgs stop_sequences grammar max_tokens
    (⟨some out.prompt_tokens, some out.completion_tokens⟩,
      .ok (match stop_sequences with
           | some stop => remove_stop_sequences out.content stop
           | none => out.content))

/-- `LiteLLMModel.__call__` (models.py lines 439-461): this variant
overrides the uniform entry point itself — it normalizes, calls the
backend, records usage, and returns the content with no
`remove_stop_sequences` call and no `isinstance` check. -/
def LiteLLMModel.call (backend : Backend) (state : TokenCounts)
    (messages : List Message) (stop_sequences : Option (List String))
    (grammar : Option String) (max_tokens : Nat) : TokenCounts × Except String String :=
  match get_clean_message_list messages tool_role_conversions with
  | .error e => (state, .error e)
  | .ok msgs =>
    let response := backend msgs stop_sequences grammar max_tokens
    (⟨some response.prompt_tokens, some response.completion_tokens⟩, .ok response.content)

/-- C3 counterexample: the trimmer is NOT applied exactly once for every
variant invoked through the uniform entry point.  With a backend that
returns "abSTOPSTOP" and stop list ["STOP"]: exactly one application
gives "abSTOP", but `TransformersModel` called through `Model.__call__`
returns "ab" (its own `generate` already trims, so the text is trimmed
twice), and `LiteLLMModel` — whose own `__call__` overrides the uniform
entry point — returns "abSTOPSTOP" (never trimmed). -/
theorem model_call_trim_not_exactly_once :
    (Model.call (fun st ms sp g k =>
        TransformersModel.generate (fun _ _ _ _ => ⟨"abSTOPSTOP", 3, 4⟩) st ms (some sp) g k)
      ⟨none, none⟩ (.list [⟨"user", "hi"⟩]) (some ["STOP"]) none 1500).2 = .ok "ab" ∧
    (LiteLLMModel.call (fun _ _ _ _ => ⟨"abSTOPSTOP", 3, 4⟩)
      ⟨none, none⟩ [⟨"user", "hi"⟩] (some ["STOP"]) none 1500).2 = .ok "abSTOPSTOP" ∧
    remove_stop_sequences "abSTOPSTOP" ["STOP"] = "abSTOP" ∧
    ("ab" : String) ≠ "abSTOP" ∧ ("abSTOPSTOP" : String) ≠ "abSTOP" := by
  refine ⟨rfl, rfl, rfl, by decide, by decide⟩

/-- C3 (amended): through the uniform `Model.__call__` entry point the
`HfApiModel` and `PortkeyModel` variants apply the stop-sequence trimmer
exactly once to the text returned by `generate`; `TransformersModel`
applies it twice (its own `generate` already trims); and `LiteLLMModel`
overrides `__call__`, so calling that variant applies the trimmer zero
times. -/
theorem model_call_trim_per_variant (backend : Backend) (state : TokenCounts)
    (msgs : List Message) (stop : Option (List String)) (grammar : Option String)
    (max_tokens : Nat) (cleanMsgs : List Message)
    (h : get_clean_message_list msgs tool_role_conversions = .ok cleanMsgs) :
    (Model.call (fun st ms sp g k => HfApiModel.generate backend st ms (some sp) g k)
        state (.list msgs) stop grammar max_tokens).2 =
      .ok (remove_stop_sequences
        (backend cleanMsgs (some (stop.getD [])) grammar max_tokens).content
        (stop.getD [])) ∧
    (Model.call (fun st ms sp g k => PortkeyModel.generate backend st ms (some sp) g k)
        state (.list msgs) stop grammar max_tokens).2 =
      .ok (remove_stop_sequences
        (backend cleanMsgs (some (stop.getD [])) grammar max_tokens).content
        (stop.getD [])) ∧
    (Model.call (fun st ms sp g k => TransformersModel.generate backend st ms (some sp) g k)
        state (.list msgs) stop grammar max_tokens).2 =
      .ok (remove_stop_sequences
        (remove_stop_sequences
          (backend cleanMsgs (some (stop.getD [])) grammar max_tokens).content
          (stop.getD []))
        (stop.getD [])) ∧
    (LiteLLMModel.call backend state msgs stop grammar max_tokens).2 =
      .ok (backend cleanMsgs stop grammar max_tokens).content := by
  refine ⟨?_, ?_, ?_, ?_⟩ <;>
    simp [Model.call, HfApiModel.generate, PortkeyModel.generate,
      TransformersModel.generate, LiteLLMModel.call, h]

theorem model_call_trim_per_variant_witness :
    (Model.call (fun st ms sp g k =>
        HfApiModel.generate (fun _ _ _ _ => ⟨"xSTOP", 3, 4⟩) st ms (some sp) g k)
      ⟨none, none⟩ (.list [⟨"user", "hi"⟩]) (some ["STOP"]) none 1500).2 = .ok "x" := by
  have h := model_call_trim_per_variant (fun _ _ _ _ => ⟨"xSTOP", 3, 4⟩) ⟨none, none⟩
    [⟨"user", "hi"⟩] (some ["STOP"]) none 1500 [⟨"user", "hi"⟩] rfl
  exact h.1.trans (by rfl)

/-- C10: for every non-list `messages` argument, `Model.__call__`
returns the `ValueError` immediately: the result is the same for every
`generate` (so the backend is never consulted) and the adapter's token
counts are unchanged. -/
theorem model_call_not_list
    (generate : TokenCounts → List Message → List String → Option String → Nat →
      TokenCounts × Except String String)
    (state : TokenCounts) (stop_sequences : Option (List String))
    (grammar : Option String) (max_tokens : Nat) :
    Model.call generate state .notList stop_sequences grammar max_tokens =
      (state, .error valueErrorMessage) := rfl

/-- Placeholder for a dangling heap reference (never hit by the model:
all references passed in point into the store). -/
def defaultMessage : Message := ⟨"", ""⟩

/-- Heap write of the role conversion (models.py lines 121-122): mutate
the message object `r` points to, in place. -/
def convertStore (rc : List (String × String)) (store : List Message) (r : Nat) :
    List Message :=
  match lookupRole rc (store.getD r defaultMessage).role with
  | some newRole => store.set r ⟨newRole, (store.getD r defaultMessage).content⟩
  | none => store

/-- Heap model of the loop of `get_clean_message_list` (models.py lines
111-131): the store is the Python heap (an index is a dict reference),
`accRefs` is `final_message_list` in reverse.  Conversion writes through
the current message's reference and merging writes through
`final_message_list[-1]`'s reference, exactly as the Python mutations
do. -/
def cleanLoopHeap (rc : List (String × String)) :
    List Message → List Nat → List Nat → List Message × Except String (List Nat)
  | store, accRefs, [] => (store, .ok accRefs.reverse)
  | store, accRefs, r :: rest =>
    if (store.getD r defaultMessage).role ∈ MessageRole.roles then
      match accRefs with
      | lastRef :: _ =>
        if ((convertStore rc store r).getD r defaultMessage).role =
            ((convertStore rc store r).getD lastRef defaultMessage).role then
          cleanLoopHeap rc
            ((convertStore rc store r).set lastRef
              ⟨((convertStore rc store r).getD lastRef defaultMessage).role,
               ((convertStore rc store r).getD lastRef defaultMessage).content ++
                 "\n=======\n" ++
                 ((convertStore rc store r).getD r defaultMessage).content⟩)
            accRefs rest
        else
          cleanLoopHeap rc (convertStore rc store r) (r :: accRefs) rest
      | [] => cleanLoopHeap rc (convertStore rc store r) (r :: accRefs) rest
    else
      (store, .error (roleErrorMessage (store.getD r defaultMessage).role))

/-- Heap model of `get_clean_message_list` (models.py lines 99-131): the
caller's argument is a list of references `refs` into `store`; line 110
(`message_list = deepcopy(message_list)`) allocates a fresh copy of
every referenced dict at the end of the store, and the loop then runs
over the fresh references only.  Returns the final heap together with
the result. -/
def get_clean_message_list_heap (store : List Message) (refs : List Nat)
    (rc : List (String × String)) : List Message × Except String (List Nat) :=
  cleanLoopHeap rc (store ++ refs.map (fun r => store.getD r defaultMessage)) []
    ((List.range refs.length).map (fun k => store.length + k))

theorem convertStore_frame (rc : List (String × String)) (store : List Message)
    (r i : Nat) (h : i ≠ r) : (convertStore rc store r)[i]? = store[i]? := by
  unfold convertStore
  cases lookupRole rc (store.getD r defaultMessage).role with
  | none => rfl
  | some newRole => exact List.getElem?_set_ne (by omega)

theorem cleanLoopHeap_cons_invalid (rc : List (String × String)) (store : List Message)
    (accRefs : List Nat) (r : Nat) (rest : List Nat)
    (h : (store.getD r defaultMessage).role ∉ MessageRole.roles) :
    cleanLoopHeap rc store accRefs (r :: rest) =
      (store, .error (roleErrorMessage (store.getD r defaultMessage).role)) := by
  cases accRefs with
  | nil =>
    simp only [cleanLoopHeap]
    rw [if_neg h]
  | cons lastRef accTail =>
    simp only [cleanLoopHeap]
    rw [if_neg h]

theorem cleanLoopHeap_cons_nil_acc (rc : List (String × String)) (store : List Message)
    (r : Nat) (rest : List Nat)
    (h : (store.getD r defaultMessage).role ∈ MessageRole.roles) :
    cleanLoopHeap rc store [] (r :: rest) =
      cleanLoopHeap rc (convertStore rc store r) [r] rest := by
  simp only [cleanLoopHeap]
  rw [if_pos h]

theorem cleanLoopHeap_cons_merge (rc : List (String × String)) (store : List Message)
    (lastRef : Nat) (accTail : List Nat) (r : Nat) (rest : List Nat)
    (h : (store.getD r defaultMessage).role ∈ MessageRole.roles)
    (hm : ((convertStore rc store r).getD r defaultMessage).role =
      ((convertStore rc store r).getD lastRef defaultMessage).role) :
    cleanLoopHeap rc store (lastRef :: accTail) (r :: rest) =
      cleanLoopHeap rc
        ((convertStore rc store r).set lastRef
          ⟨((convertStore rc store r).getD lastRef defaultMessage).role,
           ((convertStore rc store r).getD lastRef defaultMessage).content ++
             "\n=======\n" ++
             ((convertStore rc store r).getD r defaultMessage).content⟩)
        (lastRef :: accTail) rest := by
  simp only [cleanLoopHeap]
  rw [if_pos h]
  rw [if_pos hm]

theorem cleanLoopHeap_cons_push (rc : List (String × String)) (store : List Message)
    (lastRef : Nat) (accTail : List Nat) (r : Nat) (rest : List Nat)
    (h : (store.getD r defaultMessage).role ∈ MessageRole.roles)
    (hm : ¬ ((convertStore rc store r).getD r defaultMessage).role =
      ((convertStore rc store r).getD lastRef defaultMessage).role) :
    cleanLoopHeap rc store (lastRef :: accTail) (r :: rest) =
      cleanLoopHeap rc (convertStore rc store r) (r :: lastRef :: accTail) rest := by
  simp only [cleanLoopHeap]
  rw [if_pos h]
  rw [if_neg hm]

theorem cleanLoopHeap_frame (rc : List (String × String)) (n : Nat) :
    ∀ (rest : List Nat) (store : List Message) (accRefs : List Nat),
    (∀ r ∈ accRefs, n ≤ r) → (∀ r ∈ rest, n ≤ r) →
    ∀ i, i < n → ((cleanLoopHeap rc store accRefs rest).1)[i]? = store[i]? := by
  intro rest
  induction rest with
  | nil => intro store accRefs _ _ i _; rfl
  | cons r rest ih =>
    intro store accRefs hacc hrest i hi
    have hr : n ≤ r := hrest r (List.mem_cons_self r rest)
    have hrest' : ∀ x ∈ rest, n ≤ x := fun x hx => hrest x (List.mem_cons_of_mem r hx)
    have hir : i ≠ r := by omega
    by_cases hv : (store.getD r defaultMessage).role ∈ MessageRole.roles
    · cases accRefs with
      | nil =>
        rw [cleanLoopHeap_cons_nil_acc rc store r rest hv,
          ih (convertStore rc store r) [r] (by simpa using hr) hrest' i hi]
        exact convertStore_frame rc store r i hir
      | cons lastRef accTail =>
        have hlast : n ≤ lastRef := hacc lastRef (List.mem_cons_self lastRef accTail)
        have hil : i ≠ lastRef := by omega
        by_cases hm : ((convertStore rc store r).getD r defaultMessage).role =
            ((convertStore rc store r).getD lastRef defaultMessage).role
        · rw [cleanLoopHeap_cons_merge rc store lastRef accTail r rest hv hm,
            ih _ (lastRef :: accTail) hacc hrest' i hi,
            List.getElem?_set_ne (by omega)]
          exact convertStore_frame rc store r i hir
        · have hacc' : ∀ x ∈ r :: lastRef :: accTail, n ≤ x := by
            intro x hx
            rcases List.mem_cons.mp hx with rfl | hx'
            · exact hr
            · exact hacc x hx'
          rw [cleanLoopHeap_cons_push rc store lastRef accTail r rest hv hm,
            ih (convertStore rc store r) _ hacc' hrest' i hi]
          exact convertStore_frame rc store r i hir
    · rw [cleanLoopHeap_cons_invalid rc store accRefs r rest hv]

/-- C7: `get_clean_message_list` never mutates the caller's messages: in
the heap model — where the caller's list is a list of references into
the heap and the Python mutations (role rewrite, content concatenation)
are in-place writes — every heap cell that existed before the call is
unchanged afterwards, whether the call returns or raises, because line
110's `deepcopy` makes the loop write only to the fresh copies. -/
theorem get_clean_message_list_heap_frame (store : List Message) (refs : List Nat)
    (rc : List (String × String)) (i : Nat) (h : i < store.length) :
    ((get_clean_message_list_heap store refs rc).1)[i]? = store[i]? := by
  have hfresh : ∀ r ∈ (List.range refs.length).map (fun k => store.length + k),
      store.length ≤ r := by
    intro r hrm
    obtain ⟨k, _, rfl⟩ := List.mem_map.mp hrm
    omega
  rw [get_clean_message_list_heap,
    cleanLoopHeap_frame rc store.length _ _ [] (by simp) hfresh i h,
    List.getElem?_append]
  simp [h]

theorem get_clean_message_list_heap_frame_witness :
    ((get_clean_message_list_heap [⟨"user", "hi"⟩, ⟨"user", "there"⟩, ⟨"bot", "z"⟩]
        [0, 1, 2] tool_role_conversions).1)[0]? =
      ([⟨"user", "hi"⟩, ⟨"user", "there"⟩, ⟨"bot", "z"⟩] : List Message)[0]? :=
  get_clean_message_list_heap_frame [⟨"user", "hi"⟩, ⟨"user", "there"⟩, ⟨"bot", "z"⟩]
    [0, 1, 2] tool_role_conversions 0 (by decide)
